import Mathlib

/-!
# Verification of the regime-aware trading strategy core

Shallow embedding of the Python sources of the regime-aware trading
strategy repository (signals/momentum.py, signals/pairs.py,
signals/volatility.py, strategy/regime_strategy.py,
strategy/position_sizing.py, backtest/metrics.py) together with proofs
about the specified behaviour.

Numeric values are modelled exactly: finite floating-point values become
rationals, and the IEEE special values that the pandas/numpy pipeline can
produce (NaN and the two infinities) are modelled explicitly by the type
`F` below.  Irrational primitives that the code invokes (`sqrt`, the
float power `**`) are passed in as explicit function parameters so that
every definition stays executable; theorems only assume the properties of
those parameters that the corresponding real functions satisfy.
-/

/-- Model of an IEEE double as used by the pipeline: NaN, +inf, -inf or a
finite value (modelled exactly as a rational). -/
inductive F where
  | nan : F
  | pinf : F
  | ninf : F
  | val : ℚ → F
deriving DecidableEq

namespace F

/-- Float addition (`+` on pandas series). -/
def fadd : F → F → F
  | nan, _ => nan
  | _, nan => nan
  | pinf, ninf => nan
  | ninf, pinf => nan
  | pinf, _ => pinf
  | _, pinf => pinf
  | ninf, _ => ninf
  | _, ninf => ninf
  | val a, val b => val (a + b)

/-- Float subtraction. -/
def fsub : F → F → F
  | nan, _ => nan
  | _, nan => nan
  | pinf, pinf => nan
  | ninf, ninf => nan
  | pinf, _ => pinf
  | _, pinf => ninf
  | ninf, _ => ninf
  | _, ninf => pinf
  | val a, val b => val (a - b)

/-- Float multiplication (`inf * 0 = nan`, sign rules for infinities). -/
def fmul : F → F → F
  | nan, _ => nan
  | _, nan => nan
  | pinf, pinf => pinf
  | pinf, ninf => ninf
  | ninf, pinf => ninf
  | ninf, ninf => pinf
  | pinf, val b => if b = 0 then nan else if 0 < b then pinf else ninf
  | val a, pinf => if a = 0 then nan else if 0 < a then pinf else ninf
  | ninf, val b => if b = 0 then nan else if 0 < b then ninf else pinf
  | val a, ninf => if a = 0 then nan else if 0 < a then ninf else pinf
  | val a, val b => val (a * b)

/-- Float division (`0/0 = nan`, `x/0 = ±inf` for `x ≠ 0`, `x/±inf = 0`). -/
def fdiv : F → F → F
  | nan, _ => nan
  | _, nan => nan
  | pinf, pinf => nan
  | pinf, ninf => nan
  | ninf, pinf => nan
  | ninf, ninf => nan
  | pinf, val b => if 0 ≤ b then pinf else ninf
  | ninf, val b => if 0 ≤ b then ninf else pinf
  | val _, pinf => val 0
  | val _, ninf => val 0
  | val a, val b =>
      if b = 0 then (if a = 0 then nan else if 0 < a then pinf else ninf)
      else val (a / b)

/-- Float strict comparison `<` (any comparison with NaN is false). -/
def flt : F → F → Bool
  | nan, _ => false
  | _, nan => false
  | pinf, _ => false
  | ninf, ninf => false
  | ninf, _ => true
  | val _, pinf => true
  | val _, ninf => false
  | val a, val b => decide (a < b)

/-- Float comparison `≤` (any comparison with NaN is false). -/
def fle : F → F → Bool
  | nan, _ => false
  | _, nan => false
  | ninf, _ => true
  | _, ninf => false
  | _, pinf => true
  | pinf, val _ => false
  | val a, val b => decide (a ≤ b)

/-- Float absolute value. -/
def fabs : F → F
  | nan => nan
  | pinf => pinf
  | ninf => pinf
  | val a => val |a|

/-- pandas `Series.clip(lower, upper)`: clips finite values and
infinities to the bounds, NaN is preserved. -/
def fclip (lo hi : ℚ) : F → F
  | nan => nan
  | pinf => val hi
  | ninf => val lo
  | val a => val (max lo (min a hi))

/-- pandas `Series.clip(upper=hi)` (upper bound only). -/
def fclipUpper (hi : ℚ) : F → F
  | nan => nan
  | pinf => val hi
  | ninf => ninf
  | val a => val (min a hi)

/-- pandas `Series.fillna(c)` applied entrywise. -/
def fillnaC (c : ℚ) : F → F
  | nan => val c
  | x => x

end F

/-! ## signals/pairs.py — the pairs-trading finite state machine (claim C4)

Source, `pairs_positions` (lines 53-70): per pair, the integer `state`
starts at `0` (flat) and is updated date-by-date by

    if state == 0:
        if z[t] > ENTRY_Z:    state = -1
        elif z[t] < -ENTRY_Z: state = 1
    else:
        if abs(z[t]) < EXIT_Z or abs(z[t]) > STOP_Z: state = 0

with `ENTRY_Z = 1.5`, `EXIT_Z = 0.25`, `STOP_Z = 3.0`.  The rolling
z-score fed to the loop may be NaN (warm-up window), which the float
comparison model handles (all comparisons with NaN are false). -/

def ENTRY_Z : ℚ := 1.5
def EXIT_Z : ℚ := 0.25
def STOP_Z : ℚ := 3.0
def LEG_WEIGHT : ℚ := 0.35

/-- One date of the pairs state machine (`0` = flat, `1` = long spread,
`-1` = short spread), exactly as in the body of the date loop of
`pairs_positions`. -/
def pairStep (state : Int) (z : F) : Int :=
  if state = 0 then
    if F.flt (F.val ENTRY_Z) z then -1
    else if F.flt z (F.val (-ENTRY_Z)) then 1
    else 0
  else
    if F.flt (F.fabs z) (F.val EXIT_Z) || F.flt (F.val STOP_Z) (F.fabs z) then 0
    else state

/-- The per-date state sequence produced by running the loop of
`pairs_positions` from a starting state over the z-score series. -/
def pairStates (state : Int) : List F → List Int
  | [] => []
  | z :: zs =>
      let s' := pairStep state z
      s' :: pairStates s' zs

/-- From long spread the machine can only stay long or go flat, and from
short spread only stay short or go flat. -/
theorem pairStep_no_flip (s : Int) (z : F) :
    ¬(s = 1 ∧ pairStep s z = -1) ∧ ¬(s = -1 ∧ pairStep s z = 1) := by
  constructor
  · rintro ⟨rfl, h⟩
    simp only [pairStep] at h
    norm_num at h
    split at h <;> omega
  · rintro ⟨rfl, h⟩
    simp only [pairStep] at h
    norm_num at h
    split at h <;> omega

/-- Helper: the no-direct-flip property holds along the whole trace from
any starting state. -/
theorem pairStates_chain (s : Int) (zs : List F) :
    List.Chain' (fun a b => ¬(a = 1 ∧ b = -1) ∧ ¬(a = -1 ∧ b = 1))
      (pairStates s zs) := by
  induction zs generalizing s with
  | nil => simp [pairStates]
  | cons z zs ih =>
      simp only [pairStates]
      cases zs with
      | nil => simp [pairStates]
      | cons z' zs' =>
          refine List.Chain'.cons ?_ (ih (pairStep s z))
          exact pairStep_no_flip (pairStep s z) z'

/-- C4: for every z-score series, the state sequence produced by the
`pairs_positions` loop (started flat) never moves directly between long
spread and short spread on consecutive dates: any such move passes
through flat first. -/
theorem pairs_never_direct_flip (zs : List F) :
    List.Chain' (fun a b => ¬(a = 1 ∧ b = -1) ∧ ¬(a = -1 ∧ b = 1))
      (pairStates 0 zs) :=
  pairStates_chain 0 zs

/-! ## strategy/regime_strategy.py — `RegimeAwareStrategy._regime_mix` (claim C5)

Source (lines 180-212): starting from a base table keyed by the regime
string, the four sleeve fractions are adjusted and then floored at 0 and
renormalised; if the pre-normalisation total is non-positive the result
collapses to the purely defensive mix. -/

/-- The four sleeve mix fractions. -/
structure Mix where
  momentum : ℚ
  pairs : ℚ
  timeseries : ℚ
  defensive : ℚ
deriving DecidableEq

/-- `base_weights.get(regime, base_weights[Regime.MEDIUM.value])`. -/
def baseWeights (regime : String) : Mix :=
  if regime = "low_vol" then ⟨0.55, 0.15, 0.20, 0.10⟩
  else if regime = "medium_vol" then ⟨0.30, 0.20, 0.25, 0.25⟩
  else if regime = "high_vol" then ⟨0.05, 0.20, 0.15, 0.60⟩
  else ⟨0.30, 0.20, 0.25, 0.25⟩

/-- The adjusted (pre-normalisation) mix of `_regime_mix`: the common
defensive/momentum adjustments followed by the regime-specific branch
(`medium`, `high`, and the `else` branch covering `low` and any other
label). -/
def adjustedMix (regime : String) (prob_high confidence : ℚ) : Mix :=
  let base := baseWeights regime
  let uncertainty := 1 - confidence
  let d1 := base.defensive + 0.25 * uncertainty + 0.35 * prob_high
  let m1 := base.momentum * max 0 (1 - 0.7 * prob_high)
  if regime = "medium_vol" then
    ⟨m1 * (0.5 + 0.5 * confidence), base.pairs * (0.7 + 0.3 * prob_high),
      base.timeseries, d1 + 0.1⟩
  else if regime = "high_vol" then
    ⟨0, base.pairs * (0.8 + 0.4 * prob_high),
      base.timeseries * (0.6 + 0.4 * confidence), d1⟩
  else
    ⟨m1, base.pairs * (0.5 + 0.5 * prob_high),
      base.timeseries * (0.8 + 0.2 * confidence), d1 + 0.05 * uncertainty⟩

/-- `total = sum(mix.values())` before the guard. -/
def mixTotal (regime : String) (prob_high confidence : ℚ) : ℚ :=
  (adjustedMix regime prob_high confidence).momentum +
    (adjustedMix regime prob_high confidence).pairs +
    (adjustedMix regime prob_high confidence).timeseries +
    (adjustedMix regime prob_high confidence).defensive

/-- `RegimeAwareStrategy._regime_mix`: floor each fraction at 0 and
renormalise by the (pre-floor) total, collapsing to defensive when the
total is non-positive. -/
def regime_mix (regime : String) (prob_high confidence : ℚ) : Mix :=
  let m := adjustedMix regime prob_high confidence
  let total := mixTotal regime prob_high confidence
  if total ≤ 0 then ⟨0, 0, 0, 1⟩
  else ⟨max 0 m.momentum / total, max 0 m.pairs / total,
        max 0 m.timeseries / total, max 0 m.defensive / total⟩

/-- All four adjusted fractions are non-negative, and the defensive one
is at least `0.1`, whenever `prob_high` and `confidence` lie in `[0,1]`. -/
theorem adjustedMix_nonneg (regime : String) (p c : ℚ)
    (hp0 : 0 ≤ p) (_hp1 : p ≤ 1) (hc0 : 0 ≤ c) (hc1 : c ≤ 1) :
    0 ≤ (adjustedMix regime p c).momentum ∧
    0 ≤ (adjustedMix regime p c).pairs ∧
    0 ≤ (adjustedMix regime p c).timeseries ∧
    (0.1 : ℚ) ≤ (adjustedMix regime p c).defensive := by
  have hmax : (0:ℚ) ≤ max 0 (1 - 0.7 * p) := le_max_left _ _
  by_cases hm : regime = "medium_vol"
  · subst hm
    simp only [adjustedMix, baseWeights, String.reduceEq, reduceIte]
    refine ⟨?_, ?_, ?_, ?_⟩ <;> nlinarith
  · by_cases hh : regime = "high_vol"
    · subst hh
      simp only [adjustedMix, baseWeights, String.reduceEq, reduceIte]
      refine ⟨?_, ?_, ?_, ?_⟩ <;> nlinarith
    · by_cases hl : regime = "low_vol"
      · subst hl
        simp only [adjustedMix, baseWeights, String.reduceEq, reduceIte]
        refine ⟨?_, ?_, ?_, ?_⟩ <;> nlinarith
      · simp only [adjustedMix, baseWeights, if_neg hm, if_neg hh, if_neg hl]
        refine ⟨?_, ?_, ?_, ?_⟩ <;> nlinarith

/-- C5: for every regime label, the mix returned by `_regime_mix` has
non-negative fractions summing to exactly 1 whenever the probability and
confidence inputs lie in `[0,1]`; and whenever the pre-normalisation
total is non-positive the result is exactly the all-defensive mix
`{momentum: 0, pairs: 0, timeseries: 0, defensive: 1}`. -/
theorem regime_mix_valid (regime : String) (p c : ℚ) :
    (0 ≤ p → p ≤ 1 → 0 ≤ c → c ≤ 1 →
      (0 ≤ (regime_mix regime p c).momentum ∧
       0 ≤ (regime_mix regime p c).pairs ∧
       0 ≤ (regime_mix regime p c).timeseries ∧
       0 ≤ (regime_mix regime p c).defensive) ∧
      (regime_mix regime p c).momentum + (regime_mix regime p c).pairs +
        (regime_mix regime p c).timeseries +
        (regime_mix regime p c).defensive = 1) ∧
    (mixTotal regime p c ≤ 0 → regime_mix regime p c = ⟨0, 0, 0, 1⟩) := by
  constructor
  · intro hp0 hp1 hc0 hc1
    obtain ⟨hm, hpr, ht, hd⟩ := adjustedMix_nonneg regime p c hp0 hp1 hc0 hc1
    have htot : 0 < mixTotal regime p c := by
      unfold mixTotal; nlinarith
    have hnot : ¬ mixTotal regime p c ≤ 0 := not_le.mpr htot
    unfold regime_mix
    simp only [hnot, if_false]
    have hmm : max 0 (adjustedMix regime p c).momentum =
        (adjustedMix regime p c).momentum := max_eq_right hm
    have hpp : max 0 (adjustedMix regime p c).pairs =
        (adjustedMix regime p c).pairs := max_eq_right hpr
    have htt : max 0 (adjustedMix regime p c).timeseries =
        (adjustedMix regime p c).timeseries := max_eq_right ht
    have hdd : max 0 (adjustedMix regime p c).defensive =
        (adjustedMix regime p c).defensive := max_eq_right (by linarith)
    constructor
    · refine ⟨?_, ?_, ?_, ?_⟩ <;> simp only [hmm, hpp, htt, hdd] <;>
        positivity
    · simp only [hmm, hpp, htt, hdd]
      have : (adjustedMix regime p c).momentum + (adjustedMix regime p c).pairs +
          (adjustedMix regime p c).timeseries +
          (adjustedMix regime p c).defensive = mixTotal regime p c := by
        unfold mixTotal; ring
      field_simp
      linarith [this]
  · intro htot
    unfold regime_mix
    simp only [htot, if_true]

/-- Witness for C5: the in-range part at `(medium, 1/2, 1/2)` and the
non-positive-total collapse at `(medium, 0, 12)` (where the adjusted
total evaluates to `-3/50`). -/
theorem regime_mix_valid_witness :
    ((0 ≤ (regime_mix "medium_vol" (1/2) (1/2)).momentum ∧
      0 ≤ (regime_mix "medium_vol" (1/2) (1/2)).pairs ∧
      0 ≤ (regime_mix "medium_vol" (1/2) (1/2)).timeseries ∧
      0 ≤ (regime_mix "medium_vol" (1/2) (1/2)).defensive) ∧
     (regime_mix "medium_vol" (1/2) (1/2)).momentum +
       (regime_mix "medium_vol" (1/2) (1/2)).pairs +
       (regime_mix "medium_vol" (1/2) (1/2)).timeseries +
       (regime_mix "medium_vol" (1/2) (1/2)).defensive = 1) ∧
    regime_mix "medium_vol" 0 12 = ⟨0, 0, 0, 1⟩ :=
  ⟨(regime_mix_valid "medium_vol" (1/2) (1/2)).1
      (by norm_num) (by norm_num) (by norm_num) (by norm_num),
   (regime_mix_valid "medium_vol" 0 12).2
     (by simp only [mixTotal, adjustedMix, baseWeights, String.reduceEq,
           reduceIte]
         norm_num)⟩

/-! ## signals/momentum.py — `momentum_positions` (claim C3)

Source (lines 28-44): per date, assets are ranked by z-score in
descending order with `method="first"` (ties broken by column order),
the top `k = max(1, int(0.30 * n))` get weight `+0.5/k` and the bottom
`k` get `-0.5/k`; both masks are applied additively.  The computation is
purely row-wise, so it is embedded for a single date as a function of
the z-score row. -/

/-- `k = max(1, int(PCT * n_assets))` with `PCT = 0.30`. -/
def PCT_K (n : ℕ) : ℕ := max 1 (3 * n / 10)

/-- Asset `j` beats asset `i` in the descending `method="first"` ranking:
strictly larger z-score, or equal z-score and an earlier column. -/
def beats {n : ℕ} (z : Fin n → ℚ) (j i : Fin n) : Prop :=
  z i < z j ∨ (z j = z i ∧ j < i)

instance {n : ℕ} (z : Fin n → ℚ) (j i : Fin n) : Decidable (beats z j i) := by
  unfold beats; infer_instance

/-- Zero-based rank: the number of assets beating `i`. -/
def momRank0 {n : ℕ} (z : Fin n → ℚ) (i : Fin n) : ℕ :=
  (Finset.univ.filter fun j => beats z j i).card

/-- pandas `zscores.rank(axis=1, ascending=False, method="first")`. -/
def momRank {n : ℕ} (z : Fin n → ℚ) (i : Fin n) : ℕ := 1 + momRank0 z i

/-- `momentum_positions` of signals/momentum.py for one date:
`(long_mask * 0.5/k) + (short_mask * (-0.5/k))` with long mask
`rank ≤ k` and short mask `rank ≥ n - k + 1`. -/
def momentum_positions {n : ℕ} (z : Fin n → ℚ) (i : Fin n) : ℚ :=
  (if (momRank z i : ℤ) ≤ (PCT_K n : ℤ) then (0.5 : ℚ) / PCT_K n else 0) +
  (if (n : ℤ) - (PCT_K n : ℤ) + 1 ≤ (momRank z i : ℤ)
    then -((0.5 : ℚ) / PCT_K n) else 0)

theorem beats_trans {n : ℕ} (z : Fin n → ℚ) {a b c : Fin n}
    (h1 : beats z a b) (h2 : beats z b c) : beats z a c := by
  rcases h1 with h1 | ⟨h1e, h1l⟩ <;> rcases h2 with h2 | ⟨h2e, h2l⟩
  · exact Or.inl (h2.trans h1)
  · exact Or.inl (h2e ▸ h1)
  · exact Or.inl (h1e ▸ h2)
  · exact Or.inr ⟨h1e.trans h2e, h1l.trans h2l⟩

theorem beats_irrefl {n : ℕ} (z : Fin n → ℚ) (a : Fin n) : ¬ beats z a a := by
  rintro (h | ⟨_, h⟩) <;> exact absurd h (by simp)

theorem beats_total {n : ℕ} (z : Fin n → ℚ) {a b : Fin n} (h : a ≠ b) :
    beats z a b ∨ beats z b a := by
  rcases lt_trichotomy (z a) (z b) with hz | hz | hz
  · exact Or.inr (Or.inl hz)
  · rcases lt_or_gt_of_ne (Fin.val_ne_of_ne h) with hi | hi
    · exact Or.inl (Or.inr ⟨hz, hi⟩)
    · exact Or.inr (Or.inr ⟨hz.symm, hi⟩)
  · exact Or.inl (Or.inl hz)

/-- The zero-based rank respects the beats order strictly. -/
theorem momRank0_lt_of_beats {n : ℕ} (z : Fin n → ℚ) {i j : Fin n}
    (h : beats z i j) : momRank0 z i < momRank0 z j := by
  apply Finset.card_lt_card
  constructor
  · intro x hx
    simp only [Finset.mem_filter, Finset.mem_univ, true_and] at hx ⊢
    exact beats_trans z hx h
  · intro hsub
    have hi : i ∈ Finset.univ.filter fun x => beats z x j := by
      simp only [Finset.mem_filter, Finset.mem_univ, true_and]; exact h
    have := hsub hi
    simp only [Finset.mem_filter, Finset.mem_univ, true_and] at this
    exact beats_irrefl z i this

theorem momRank0_injective {n : ℕ} (z : Fin n → ℚ) :
    Function.Injective (momRank0 z) := by
  intro i j hij
  by_contra h
  rcases beats_total z h with hb | hb
  · exact absurd hij (Nat.ne_of_lt (momRank0_lt_of_beats z hb))
  · exact absurd hij.symm (Nat.ne_of_lt (momRank0_lt_of_beats z hb))

theorem momRank0_lt {n : ℕ} (z : Fin n → ℚ) (i : Fin n) : momRank0 z i < n := by
  have : (Finset.univ.filter fun j => beats z j i) ⊆ Finset.univ.erase i := by
    intro x hx
    simp only [Finset.mem_filter, Finset.mem_univ, true_and] at hx
    refine Finset.mem_erase.mpr ⟨?_, Finset.mem_univ x⟩
    rintro rfl; exact beats_irrefl z x hx
  calc momRank0 z i ≤ (Finset.univ.erase i).card := Finset.card_le_card this
    _ < n := by
        rw [Finset.card_erase_of_mem (Finset.mem_univ i)]
        simp only [Finset.card_univ, Fintype.card_fin]
        have : 0 < n := i.pos
        omega

/-- The zero-based rank as a bijection of `Fin n`. -/
def momRankFin {n : ℕ} (z : Fin n → ℚ) (i : Fin n) : Fin n :=
  ⟨momRank0 z i, momRank0_lt z i⟩

theorem momRankFin_bijective {n : ℕ} (z : Fin n → ℚ) :
    Function.Bijective (momRankFin z) := by
  have hinj : Function.Injective (momRankFin z) := by
    intro i j h
    exact momRank0_injective z (congrArg Fin.val h)
  exact Finite.injective_iff_bijective.mp hinj

/-- Counting the dates whose zero-based rank is below a cutoff. -/
theorem card_momRank0_lt {n : ℕ} (z : Fin n → ℚ) (k : ℕ) :
    (Finset.univ.filter fun i => momRank0 z i < k).card = min k n := by
  have h1 : (Finset.univ.filter fun i => momRank0 z i < k).card
      = (Finset.univ.filter fun m : Fin n => m.val < k).card := by
    apply Finset.card_bij (fun i _ => momRankFin z i)
    · intro a ha
      simp only [Finset.mem_filter, Finset.mem_univ, true_and] at ha ⊢
      exact ha
    · intro a _ b _ h
      exact (momRankFin_bijective z).injective h
    · intro b hb
      obtain ⟨a, ha⟩ := (momRankFin_bijective z).surjective b
      refine ⟨a, ?_, ha⟩
      simp only [Finset.mem_filter, Finset.mem_univ, true_and] at hb ⊢
      rw [← ha] at hb
      exact hb
  have h2 : (Finset.univ.filter fun m : Fin n => m.val < k).card
      = ((Finset.range n).filter fun m => m < k).card := by
    apply Finset.card_bij (fun m _ => m.val)
    · intro a ha
      simp only [Finset.mem_filter, Finset.mem_univ, true_and] at ha
      simp only [Finset.mem_filter, Finset.mem_range]
      exact ⟨a.isLt, ha⟩
    · intro a _ b _ h
      exact Fin.val_injective h
    · intro b hb
      simp only [Finset.mem_filter, Finset.mem_range] at hb
      exact ⟨⟨b, hb.1⟩, by simp [hb.2], rfl⟩
  have h3 : (Finset.range n).filter (fun m => m < k) = Finset.range (min k n) := by
    ext x
    simp only [Finset.mem_filter, Finset.mem_range, Nat.lt_min]
    omega
  rw [h1, h2, h3, Finset.card_range]

theorem PCT_K_pos (n : ℕ) : 1 ≤ PCT_K n := le_max_left _ _

theorem PCT_K_le (n : ℕ) (hn : 1 ≤ n) : PCT_K n ≤ n := by
  unfold PCT_K; omega

theorem two_PCT_K_le (n : ℕ) (hn : 2 ≤ n) : 2 * PCT_K n ≤ n := by
  unfold PCT_K; omega

/-- Rewriting the two mask conditions through the zero-based rank. -/
theorem momentum_positions_eq {n : ℕ} (hn : 1 ≤ n) (z : Fin n → ℚ) (i : Fin n) :
    momentum_positions z i =
      (if momRank0 z i < PCT_K n then (0.5 : ℚ) / PCT_K n else 0) +
      (if n - PCT_K n ≤ momRank0 z i then -((0.5 : ℚ) / PCT_K n) else 0) := by
  have hKn := PCT_K_le n hn
  have h1 : ((momRank z i : ℤ) ≤ (PCT_K n : ℤ)) ↔ momRank0 z i < PCT_K n := by
    unfold momRank; push_cast; omega
  have h2 : ((n : ℤ) - (PCT_K n : ℤ) + 1 ≤ (momRank z i : ℤ)) ↔
      n - PCT_K n ≤ momRank0 z i := by
    unfold momRank; push_cast; omega
  simp only [momentum_positions, h1, h2]

/-- The long mask selects exactly `k` assets. -/
theorem card_long_mask {n : ℕ} (hn : 1 ≤ n) (z : Fin n → ℚ) :
    (Finset.univ.filter fun i => momRank0 z i < PCT_K n).card = PCT_K n := by
  rw [card_momRank0_lt z (PCT_K n)]
  exact Nat.min_eq_left (PCT_K_le n hn)

/-- The short mask selects exactly `k` assets. -/
theorem card_short_mask {n : ℕ} (hn : 1 ≤ n) (z : Fin n → ℚ) :
    (Finset.univ.filter fun i => n - PCT_K n ≤ momRank0 z i).card = PCT_K n := by
  have hKn := PCT_K_le n hn
  have hcongr : (Finset.univ.filter fun i => n - PCT_K n ≤ momRank0 z i)
      = (Finset.univ.filter fun i => ¬ momRank0 z i < n - PCT_K n) := by
    apply Finset.filter_congr
    intro i _
    constructor <;> (intro h; simp only [not_lt, decide_eq_true_eq] at *; omega)
  have hsplit := Finset.filter_card_add_filter_neg_card_eq_card
    (s := (Finset.univ : Finset (Fin n)))
    (p := fun i => momRank0 z i < n - PCT_K n)
  rw [hcongr]
  have hlow : (Finset.univ.filter fun i => momRank0 z i < n - PCT_K n).card
      = n - PCT_K n := by
    rw [card_momRank0_lt z (n - PCT_K n)]
    omega
  simp only [Finset.card_univ, Fintype.card_fin] at hsplit
  omega

/-- C3 (amended): the momentum weights of each date sum to exactly 0 for
every universe size; and for at least two assets the positive entries sum
to exactly `0.5` and the negative entries to exactly `-0.5`.  (With a
single asset the long and short mask coincide, the only weight is `0`,
and both gross sums are `0`.) -/
theorem momentum_positions_sums {n : ℕ} (z : Fin n → ℚ) :
    (∑ i, momentum_positions z i = 0) ∧
    (2 ≤ n →
      (∑ i in Finset.univ.filter fun i => 0 < momentum_positions z i,
          momentum_positions z i) = 0.5 ∧
      (∑ i in Finset.univ.filter fun i => momentum_positions z i < 0,
          momentum_positions z i) = -0.5) := by
  rcases Nat.eq_zero_or_pos n with rfl | hn
  · refine ⟨by simp, by omega⟩
  have hK1 := PCT_K_pos n
  have hKn := PCT_K_le n hn
  have hKQ : ((PCT_K n : ℚ)) ≠ 0 := Nat.cast_ne_zero.mpr (by omega)
  have hKmul : (PCT_K n : ℚ) * ((0.5 : ℚ) / PCT_K n) = 0.5 := by
    field_simp
  constructor
  · calc ∑ i, momentum_positions z i
        = ∑ i, ((if momRank0 z i < PCT_K n then (0.5 : ℚ) / PCT_K n else 0) +
            (if n - PCT_K n ≤ momRank0 z i then -((0.5 : ℚ) / PCT_K n) else 0)) := by
          exact Finset.sum_congr rfl fun i _ => momentum_positions_eq hn z i
      _ = (∑ i, if momRank0 z i < PCT_K n then (0.5 : ℚ) / PCT_K n else 0) +
          (∑ i, if n - PCT_K n ≤ momRank0 z i then -((0.5 : ℚ) / PCT_K n) else 0) :=
          Finset.sum_add_distrib
      _ = (PCT_K n : ℚ) * ((0.5 : ℚ) / PCT_K n) +
          (PCT_K n : ℚ) * (-((0.5 : ℚ) / PCT_K n)) := by
          rw [← Finset.sum_filter, ← Finset.sum_filter, Finset.sum_const,
            Finset.sum_const, card_long_mask hn z, card_short_mask hn z,
            nsmul_eq_mul, nsmul_eq_mul]
      _ = 0 := by ring
  · intro hn2
    have h2K := two_PCT_K_le n hn2
    have hdisj : ∀ i : Fin n,
        ¬(momRank0 z i < PCT_K n ∧ n - PCT_K n ≤ momRank0 z i) := by
      intro i ⟨h1, h2⟩; omega
    have hapos : (0:ℚ) < (0.5 : ℚ) / PCT_K n := by positivity
    have hval : ∀ i : Fin n, momentum_positions z i =
        (if momRank0 z i < PCT_K n then (0.5 : ℚ) / PCT_K n else
          if n - PCT_K n ≤ momRank0 z i then -((0.5 : ℚ) / PCT_K n) else 0) := by
      intro i
      rw [momentum_positions_eq hn z i]
      by_cases h : momRank0 z i < PCT_K n
      · have h2 : ¬ (n - PCT_K n ≤ momRank0 z i) := fun hc => hdisj i ⟨h, hc⟩
        rw [if_pos h, if_pos h, if_neg h2, add_zero]
      · rw [if_neg h, if_neg h, zero_add]
    have hposfilter : (Finset.univ.filter fun i => 0 < momentum_positions z i)
        = Finset.univ.filter fun i => momRank0 z i < PCT_K n := by
      apply Finset.filter_congr
      intro i _
      rw [hval i]
      by_cases h : momRank0 z i < PCT_K n
      · rw [if_pos h]
        simp only [h, iff_true]
        exact hapos
      · rw [if_neg h]
        by_cases h2 : n - PCT_K n ≤ momRank0 z i
        · rw [if_pos h2]
          simp only [h, iff_false]
          intro hc; linarith
        · rw [if_neg h2]
          simp only [h, iff_false]
          exact lt_irrefl 0
    have hnegfilter : (Finset.univ.filter fun i => momentum_positions z i < 0)
        = Finset.univ.filter fun i => n - PCT_K n ≤ momRank0 z i := by
      apply Finset.filter_congr
      intro i _
      rw [hval i]
      by_cases h : momRank0 z i < PCT_K n
      · have h2 : ¬ (n - PCT_K n ≤ momRank0 z i) := fun hc => hdisj i ⟨h, hc⟩
        rw [if_pos h]
        simp only [h2, iff_false]
        intro hc; linarith
      · rw [if_neg h]
        by_cases h2 : n - PCT_K n ≤ momRank0 z i
        · rw [if_pos h2]
          simp only [h2, iff_true]
          linarith
        · rw [if_neg h2]
          simp only [h2, iff_false]
          exact lt_irrefl 0
    constructor
    · rw [hposfilter]
      have heach : ∀ i ∈ Finset.univ.filter fun i => momRank0 z i < PCT_K n,
          momentum_positions z i = (0.5 : ℚ) / PCT_K n := by
        intro i hi
        simp only [Finset.mem_filter, Finset.mem_univ, true_and] at hi
        rw [hval i, if_pos hi]
      rw [Finset.sum_congr rfl heach, Finset.sum_const, card_long_mask hn z,
        nsmul_eq_mul, hKmul]
    · rw [hnegfilter]
      have heach : ∀ i ∈ Finset.univ.filter fun i => n - PCT_K n ≤ momRank0 z i,
          momentum_positions z i = -((0.5 : ℚ) / PCT_K n) := by
        intro i hi
        simp only [Finset.mem_filter, Finset.mem_univ, true_and] at hi
        have hnl : ¬ momRank0 z i < PCT_K n := fun hc => hdisj i ⟨hc, hi⟩
        rw [hval i, if_neg hnl, if_pos hi]
      rw [Finset.sum_congr rfl heach, Finset.sum_const, card_short_mask hn z,
        nsmul_eq_mul, mul_neg, hKmul]

/-- Counterexample to C3 as stated: with a single asset (`n = 1`) the long
and short mask both select that asset, its weight is `0.5 - 0.5 = 0`, and
the sum of the positive entries is `0`, not `0.5`. -/
theorem momentum_single_asset_gross_zero :
    (∑ i in Finset.univ.filter
        fun i => 0 < momentum_positions (fun _ : Fin 1 => (0:ℚ)) i,
        momentum_positions (fun _ : Fin 1 => (0:ℚ)) i) = 0 ∧ (0 : ℚ) ≠ 0.5 := by
  have hr : momRank0 (fun _ : Fin 1 => (0:ℚ)) 0 = 0 := by
    rw [momRank0, Finset.card_eq_zero, Finset.filter_eq_empty_iff]
    intro j _
    fin_cases j
    simp [beats]
  have hw : momentum_positions (fun _ : Fin 1 => (0:ℚ)) 0 = 0 := by
    norm_num [momentum_positions, momRank, hr, PCT_K]
  constructor
  · rw [Finset.sum_filter, Fin.sum_univ_one, hw]
    norm_num
  · norm_num

/-- Witness for the amended C3 at a concrete two-asset date (all z-scores
tied, broken by column order). -/
theorem momentum_positions_sums_witness :
    (∑ i, momentum_positions (fun _ : Fin 2 => (0:ℚ)) i = 0) ∧
    ((∑ i in Finset.univ.filter
        fun i => 0 < momentum_positions (fun _ : Fin 2 => (0:ℚ)) i,
        momentum_positions (fun _ : Fin 2 => (0:ℚ)) i) = 0.5 ∧
     (∑ i in Finset.univ.filter
        fun i => momentum_positions (fun _ : Fin 2 => (0:ℚ)) i < 0,
        momentum_positions (fun _ : Fin 2 => (0:ℚ)) i) = -0.5) :=
  ⟨(momentum_positions_sums (fun _ : Fin 2 => (0:ℚ))).1,
   (momentum_positions_sums (fun _ : Fin 2 => (0:ℚ))).2 (by norm_num)⟩

/-! ## strategy/position_sizing.py — `scale_weights` (claims C7, C8)

Source (lines 14-45).  Panels are indexed by `(t, j)` with `t` the date
position and `j < m` the asset column; `spy` is the column of the
benchmark asset "SPY".  The square root inside pandas `rolling.std` is
passed in as the oracle `sq` applied to the exact window variance. -/

section PositionSizing

variable (sq : ℚ → ℚ) (raw prices : ℕ → ℕ → ℚ) (m spy : ℕ)

/-- `returns = prices.pct_change().fillna(0.0)`, entry `(t, j)`. -/
def pctChange (t j : ℕ) : ℚ :=
  if t = 0 then 0 else prices t j / prices (t - 1) j - 1

/-- `port_returns = (raw_weights.shift().fillna(0.0) * returns).sum(axis=1)`. -/
def portReturn (t : ℕ) : ℚ :=
  ∑ j in Finset.range m, (if t = 0 then 0 else raw (t - 1) j) * pctChange prices t j

/-- Mean over the rolling window `[a, a + w)`. -/
def windowMean (f : ℕ → ℚ) (a w : ℕ) : ℚ :=
  (∑ i in Finset.range w, f (a + i)) / w

/-- Sample variance (`ddof = 1`, as in pandas `rolling.std`) over the
window `[a, a + w)`. -/
def windowVar (f : ℕ → ℚ) (a w : ℕ) : ℚ :=
  (∑ i in Finset.range w, (f (a + i) - windowMean f a w) ^ 2) / ((w - 1 : ℕ) : ℚ)

/-- `daily_vol = port_returns.rolling(ROLL).std()` with `ROLL = 20`:
NaN during the first 19 dates, else the square root of the window
variance. -/
def dailyVol (t : ℕ) : F :=
  if 19 ≤ t then F.val (sq (windowVar (portReturn raw prices m) (t - 19) 20))
  else F.nan

/-- `spy_vol = returns["SPY"].rolling(ROLL).std()`. -/
def spyVol (t : ℕ) : F :=
  if 19 ≤ t then F.val (sq (windowVar (fun s => pctChange prices s spy) (t - 19) 20))
  else F.nan

/-- `effective_vol = daily_vol.fillna(spy_vol)`. -/
def effectiveVol (t : ℕ) : F :=
  match dailyVol sq raw prices m t with
  | F.nan => spyVol sq prices spy t
  | x => x

/-- pandas `Series.replace(0, np.nan)` entrywise. -/
def replaceZero : F → F
  | F.val q => if q = 0 then F.nan else F.val q
  | x => x

/-- `scaler = (TARGET_VOL / effective_vol.replace(0, nan)).clip(upper=2.7).fillna(1.0)`
with `TARGET_VOL = 0.06`. -/
def volScaler (t : ℕ) : F :=
  F.fillnaC 1 (F.fclipUpper 2.7
    (F.fdiv (F.val 0.06) (replaceZero (effectiveVol sq raw prices m spy t))))

/-- `equity = (1 + port_returns).cumprod()`. -/
def equity (t : ℕ) : ℚ :=
  ∏ s in Finset.range (t + 1), (1 + portReturn raw prices m s)

/-- `equity.cummax()`. -/
def cummaxEquity : ℕ → ℚ
  | 0 => equity raw prices m 0
  | t + 1 => max (cummaxEquity t) (equity raw prices m (t + 1))

/-- `drawdown = equity / equity.cummax() - 1` (float semantics: `0/0`
is NaN and `neg/0` is `-inf`, which happens when the running maximum
equity is zero). -/
def drawdown (t : ℕ) : F :=
  F.fsub (F.fdiv (F.val (equity raw prices m t))
    (F.val (cummaxEquity raw prices m t))) (F.val 1)

/-- `((dd_scaler - dd_cutoff) / (dd_start - dd_cutoff)).clip(0.0, 1.0)`
with `dd_start = -0.05`, `dd_cutoff = -0.25`. -/
def ddScalerLin (t : ℕ) : F :=
  F.fclip 0 1 (F.fdiv (F.fsub (drawdown raw prices m t) (F.val (-0.25)))
    (F.val ((-0.05) - (-0.25))))

/-- `.where(drawdown <= dd_start, 1.0).fillna(1.0)`. -/
def ddScalerWhere (t : ℕ) : F :=
  F.fillnaC 1 (if F.fle (drawdown raw prices m t) (F.val (-0.05))
    then ddScalerLin raw prices m t else F.val 1)

/-- `crash = (drawdown <= -0.12).astype(int)`. -/
def crash (t : ℕ) : ℚ :=
  if F.fle (drawdown raw prices m t) (F.val (-0.12)) then 1 else 0

/-- `cooldown = crash.rolling(5, min_periods=1).max()`. -/
def cooldown (t : ℕ) : ℚ :=
  ((List.range (min 5 (t + 1))).map fun i => crash raw prices m (t - i)).foldr max 0

/-- `dd_scaler = dd_scaler * (1 - cooldown)`. -/
def ddScaler (t : ℕ) : F :=
  F.fmul (ddScalerWhere raw prices m t) (F.val (1 - cooldown raw prices m t))

/-- `final_scaler = scaler.mul(dd_scaler, axis=0)`. -/
def finalScaler (t : ℕ) : F :=
  F.fmul (volScaler sq raw prices m spy t) (ddScaler raw prices m t)

/-- `scale_weights` output entry `(t, j)`:
`raw_weights.mul(final_scaler, axis=0)`. -/
def scale_weights (t j : ℕ) : F :=
  F.fmul (F.val (raw t j)) (finalScaler sq raw prices m spy t)

end PositionSizing

/-- The window variance is non-negative. -/
theorem windowVar_nonneg (f : ℕ → ℚ) (a w : ℕ) : 0 ≤ windowVar f a w := by
  unfold windowVar
  apply div_nonneg
  · exact Finset.sum_nonneg fun i _ => sq_nonneg _
  · exact Nat.cast_nonneg _

/-- The volatility scale factor always resolves to a finite value in
`[0, 2.7]` (given a square-root oracle that is non-negative on
non-negative inputs). -/
theorem volScaler_bounded (sq : ℚ → ℚ) (raw prices : ℕ → ℕ → ℚ) (m spy : ℕ)
    (hsq : ∀ x, 0 ≤ x → 0 ≤ sq x) (t : ℕ) :
    ∃ s, volScaler sq raw prices m spy t = F.val s ∧ 0 ≤ s ∧ s ≤ 2.7 := by
  unfold volScaler effectiveVol dailyVol spyVol
  by_cases ht : 19 ≤ t
  · simp only [ht, if_true]
    set v := sq (windowVar (portReturn raw prices m) (t - 19) 20) with hv
    have hv0 : 0 ≤ v := hsq _ (windowVar_nonneg _ _ _)
    by_cases hz : v = 0
    · refine ⟨1, ?_, by norm_num, by norm_num⟩
      simp [replaceZero, hz, F.fdiv, F.fclipUpper, F.fillnaC]
    · refine ⟨min (0.06 / v) 2.7, ?_, ?_, min_le_right _ _⟩
      · simp [replaceZero, hz, F.fdiv, F.fclipUpper, F.fillnaC]
      · have hvpos : 0 < v := lt_of_le_of_ne hv0 (Ne.symm hz)
        have : 0 ≤ 0.06 / v := by positivity
        exact le_min this (by norm_num)
  · simp only [ht, if_false]
    refine ⟨1, ?_, by norm_num, by norm_num⟩
    simp [replaceZero, F.fdiv, F.fclipUpper, F.fillnaC]

/-- The post-`where`/`fillna` drawdown multiplier is a finite value in
`[0, 1]` whatever the drawdown resolves to. -/
theorem ddScalerWhere_bounded (raw prices : ℕ → ℕ → ℚ) (m t : ℕ) :
    ∃ d, ddScalerWhere raw prices m t = F.val d ∧ 0 ≤ d ∧ d ≤ 1 := by
  unfold ddScalerWhere ddScalerLin
  rcases hdd : drawdown raw prices m t with _ | _ | _ | q
  · exact ⟨1, by simp [F.fle, F.fillnaC], by norm_num, by norm_num⟩
  · exact ⟨1, by simp [F.fle, F.fillnaC], by norm_num, by norm_num⟩
  · refine ⟨0, ?_, le_refl 0, by norm_num⟩
    simp [F.fle, F.fsub, F.fdiv, F.fclip, F.fillnaC]
    norm_num
  · by_cases hq : q ≤ -0.05
    · refine ⟨max 0 (min ((q - (-0.25)) / ((-0.05) - (-0.25))) 1), ?_, le_max_left _ _, ?_⟩
      · simp only [F.fle, decide_eq_true_eq, hq, if_true, F.fsub, F.fdiv]
        norm_num [F.fclip, F.fillnaC]
      · exact max_le (by norm_num) (min_le_right _ _)
    · refine ⟨1, ?_, by norm_num, by norm_num⟩
      simp only [F.fle, decide_eq_true_eq, hq, if_false, F.fillnaC]

/-- The cooldown series only takes values in `[0, 1]`. -/
theorem cooldown_bounded (raw prices : ℕ → ℕ → ℚ) (m t : ℕ) :
    0 ≤ cooldown raw prices m t ∧ cooldown raw prices m t ≤ 1 := by
  unfold cooldown
  have hcr : ∀ s, 0 ≤ crash raw prices m s ∧ crash raw prices m s ≤ 1 := by
    intro s
    unfold crash
    split <;> norm_num
  generalize (List.range (min 5 (t + 1))) = l
  induction l with
  | nil => simp
  | cons x xs ih =>
      simp only [List.map_cons, List.foldr_cons]
      obtain ⟨h0, h1⟩ := hcr (t - x)
      obtain ⟨ih0, ih1⟩ := ih
      exact ⟨le_max_of_le_left h0, max_le h1 ih1⟩

/-- C8: with NaN-free inputs and positive prices, every entry of the
`scale_weights` output panel is a finite value (no NaN), the volatility
scale factor is finite, non-negative and capped at `2.7` at every date,
and no output entry exceeds `2.7` times the raw weight in absolute
value. -/
theorem scale_weights_no_nan_capped (sq : ℚ → ℚ) (raw prices : ℕ → ℕ → ℚ)
    (m spy : ℕ) (_hpos : ∀ t j, j < m → 0 < prices t j)
    (hsq : ∀ x, 0 ≤ x → 0 ≤ sq x) :
    (∀ t, ∃ s, volScaler sq raw prices m spy t = F.val s ∧ 0 ≤ s ∧ s ≤ 2.7) ∧
    (∀ t j, ∃ q, scale_weights sq raw prices m spy t j = F.val q ∧
      |q| ≤ 2.7 * |raw t j|) := by
  refine ⟨fun t => volScaler_bounded sq raw prices m spy hsq t, fun t j => ?_⟩
  obtain ⟨s, hs, hs0, hs27⟩ := volScaler_bounded sq raw prices m spy hsq t
  obtain ⟨d, hd, hd0, hd1⟩ := ddScalerWhere_bounded raw prices m t
  obtain ⟨hc0, hc1⟩ := cooldown_bounded raw prices m t
  refine ⟨raw t j * (s * (d * (1 - cooldown raw prices m t))), ?_, ?_⟩
  · unfold scale_weights finalScaler ddScaler
    rw [hs, hd]
    simp [F.fmul]
  · have hdc0 : 0 ≤ d * (1 - cooldown raw prices m t) := by nlinarith
    have hdc1 : d * (1 - cooldown raw prices m t) ≤ 1 := by nlinarith
    have hfs0 : 0 ≤ s * (d * (1 - cooldown raw prices m t)) := by positivity
    have hfs27 : s * (d * (1 - cooldown raw prices m t)) ≤ 2.7 := by nlinarith
    rw [abs_mul]
    have habs : |s * (d * (1 - cooldown raw prices m t))| =
        s * (d * (1 - cooldown raw prices m t)) := abs_of_nonneg hfs0
    rw [habs]
    calc |raw t j| * (s * (d * (1 - cooldown raw prices m t)))
        ≤ |raw t j| * 2.7 := by
          exact mul_le_mul_of_nonneg_left hfs27 (abs_nonneg _)
      _ = 2.7 * |raw t j| := mul_comm _ _

/-- Witness for C8 at a concrete one-asset panel of constant prices and
weights (square-root oracle instantiated by the identity). -/
theorem scale_weights_no_nan_capped_witness :
    (∀ t, ∃ s, volScaler id (fun _ _ => 1) (fun _ _ => 1) 1 0 t = F.val s ∧
      0 ≤ s ∧ s ≤ 2.7) ∧
    (∀ t j, ∃ q, scale_weights id (fun _ _ => 1) (fun _ _ => 1) 1 0 t j = F.val q ∧
      |q| ≤ 2.7 * |(1:ℚ)|) :=
  scale_weights_no_nan_capped id (fun _ _ => 1) (fun _ _ => 1) 1 0
    (fun _ _ _ => by norm_num) (fun _ hx => hx)

/-- Concrete one-asset price path for exercising `scale_weights`: the
benchmark asset returns `+9%, -9%, +1.5%, -1.5%, +1.5%, -1.5%` on dates
1..6 and is flat afterwards, so the 20-date window ending at date 20 has
sample variance exactly `9/10000` (a 20-day standard deviation of 3%). -/
def pricesC : ℕ → ℕ → ℚ := fun t _ =>
  if t = 0 then 1
  else if t = 1 then 109/100
  else if t = 2 then 9919/10000
  else if t = 3 then 2013557/2000000
  else if t = 4 then 396670729/400000000
  else if t = 5 then 80524157987/80000000000
  else 15863259123439/16000000000000

/-- Constant raw weight of 1 on the single asset. -/
def rawOneC : ℕ → ℕ → ℚ := fun _ _ => 1

/-- Square-root oracle agreeing with the exact real square root at the
only variance value reached in the evaluation (`√(9/10000) = 3/100`). -/
def sqC : ℚ → ℚ := fun x => if x = 9/10000 then 3/100 else 0

/-- C7, the code at a failing input: at date 20 the window standard
deviation of the lagged portfolio returns is exactly `0.03`, and
`scale_weights` applies the volatility scale factor
`0.06 / 0.03 = 2` — the annual target divided by the *un-annualised*
20-day standard deviation — whereas the factor described by the claim,
`0.06 / (0.03 · √252)` clipped at 2.7, is not 2. -/
theorem volScaler_missing_annualisation :
    volScaler sqC rawOneC pricesC 1 0 20 = F.val 2 ∧
    (2:ℝ) ≠ min ((0.06:ℝ) / ((3/100) * Real.sqrt 252)) 2.7 := by
  constructor
  · have hvar : windowVar (portReturn rawOneC pricesC 1) 1 20 = 9/10000 := by
      unfold windowVar windowMean
      simp only [Finset.sum_range_succ, Finset.sum_range_zero]
      norm_num [portReturn, pctChange, rawOneC, pricesC, Finset.sum_range_succ,
        Finset.sum_range_zero]
    unfold volScaler effectiveVol dailyVol
    norm_num [hvar, sqC, replaceZero, F.fdiv, F.fclipUpper, F.fillnaC]
  · have hsq := Real.sq_sqrt (show (0:ℝ) ≤ 252 by norm_num)
    have hnn := Real.sqrt_nonneg 252
    have hs15 : (15:ℝ) ≤ Real.sqrt 252 := by nlinarith
    have hle : (0.06:ℝ) / ((3/100) * Real.sqrt 252) ≤ 0.06 / ((3/100) * 15) := by
      gcongr
    intro heq
    have hmin : min ((0.06:ℝ) / ((3/100) * Real.sqrt 252)) 2.7
        ≤ 0.06 / ((3/100) * 15) :=
      le_trans (min_le_left _ _) hle
    rw [← heq] at hmin
    norm_num at hmin

/-! ## signals/volatility.py `classify_regime` and regime_strategy.py
`_estimate_high_regime_prob` / `__init__` (claims C1, C2, C6) -/

/-- `classify_regime` of signals/volatility.py (lines 274-295): Low for
vix < 15, Medium for 15 ≤ vix < 25, High for vix ≥ 25. -/
def classify_regime (v : ℚ) : String :=
  if v < 15 then "low_vol"
  else if v < 25 then "medium_vol"
  else "high_vol"

/-- `high_flag = (self.regimes == Regime.HIGH.value).astype(int)`. -/
def highFlag (vix : List ℚ) : List Bool :=
  vix.map fun v => decide (classify_regime v = "high_vol")

/-- The 0/1 value of a boolean label (`astype(int)` / `astype(float)`). -/
def b2q (b : Bool) : ℚ := if b then 1 else 0

/-- pandas `Series.nunique` of a boolean series: the number of distinct
values present. -/
def nuniqueB (l : List Bool) : ℕ :=
  (if l.contains true then 1 else 0) + (if l.contains false then 1 else 0)

/-- `min_train = 252`. -/
def MIN_TRAIN : ℕ := 252

/-- The short-history branch of the walk-forward loop (source lines
96-99): `window = high_flag.iloc[:pos] if pos else high_flag.iloc[:1]`,
then the window mean, or `0.0` for an empty window.  The mean of
finitely many 0/1 labels is always finite, so the `np.isfinite` guard
of line 99 is the identity here. -/
def baselineProb (labels : List Bool) (pos : ℕ) : ℚ :=
  let window := if pos = 0 then labels.take 1 else labels.take pos
  if window.length = 0 then 0 else (window.map b2q).sum / window.length

/-- One entry of the walk-forward loop (source lines 95-114): the
baseline branch below `min_train`; else the fallback to the last
training label when the trailing window is single-class; else the
fitted logistic-regression probability.  The scaler and classifier
fit/predict of that last branch live in scikit-learn outside this
repository; being a function of the vix series and the position, they
are abstracted as the oracle `clf`. -/
def loopProb (clf : List ℚ → ℕ → ℚ) (vix : List ℚ) (labels : List Bool)
    (pos : ℕ) : ℚ :=
  if pos < MIN_TRAIN then baselineProb labels pos
  else if nuniqueB ((labels.drop (pos - MIN_TRAIN)).take MIN_TRAIN) < 2 then
    b2q (labels.getD (pos - 1) false)
  else clf vix pos

/-- `RegimeAwareStrategy._estimate_high_regime_prob`: degenerate labels
(or a missing scikit-learn) return the raw 0/1 label series; otherwise
every position is assigned by the loop, so the trailing
`ffill().fillna(...)` of line 116 is the identity, and the result is
clipped to `[0, 1]`. -/
def estimateHighRegimeProb (clf : List ℚ → ℕ → ℚ) (vix : List ℚ) : List ℚ :=
  if nuniqueB (highFlag vix) < 2 then (highFlag vix).map b2q
  else (List.range vix.length).map fun pos =>
    max 0 (min (loopProb clf vix (highFlag vix) pos) 1)

/-- A concrete classifier oracle (used only to close statements whose
loop branch never reaches the classifier). -/
def clfZero : List ℚ → ℕ → ℚ := fun _ _ => 0

/-- Modelled from the spec: "the trailing mean of the provisional
High-regime label" over the dates strictly before position `pos`. -/
def meanLabelsBefore (labels : List Bool) (pos : ℕ) : ℚ :=
  ((labels.take pos).map b2q).sum / pos

/-- C1, the code at a failing input: the probability produced at the
first date equals that date's own provisional label, so perturbing the
vix value at date 0 (a date `≥ t` for `t = 0`) changes the probability
at date 0 from 1 to 0.  This holds for every classifier oracle: the
classifier branch is never reached below `min_train`. -/
theorem estimateProb_depends_on_current_date (clf : List ℚ → ℕ → ℚ) :
    (estimateHighRegimeProb clf [30, 10]).getD 0 0 = 1 ∧
    (estimateHighRegimeProb clf [10, 30]).getD 0 0 = 0 := by
  constructor <;>
    · norm_num [estimateHighRegimeProb, highFlag, classify_regime, nuniqueB,
        loopProb, baselineProb, b2q, MIN_TRAIN, List.range_succ]
      simp only [String.reduceEq, reduceIte]
      norm_num

/-- The sum of 0/1 labels lies between 0 and the number of labels. -/
theorem sum_b2q_bounds (l : List Bool) :
    0 ≤ (l.map b2q).sum ∧ (l.map b2q).sum ≤ l.length := by
  induction l with
  | nil => simp
  | cons a as ih =>
      obtain ⟨ih0, ih1⟩ := ih
      have hb : b2q a = 1 ∨ b2q a = 0 := by cases a <;> simp [b2q]
      simp only [List.map_cons, List.sum_cons, List.length_cons]
      rcases hb with hb | hb <;> rw [hb] <;> constructor <;> push_cast <;>
        linarith

/-- Helper: reading one position out of the loop-produced series. -/
theorem estimateProb_getD (clf : List ℚ → ℕ → ℚ) (vix : List ℚ) (q : ℕ)
    (hq : q < vix.length) (hnd : ¬ nuniqueB (highFlag vix) < 2) :
    (estimateHighRegimeProb clf vix).getD q 0 =
      max 0 (min (loopProb clf vix (highFlag vix) q) 1) := by
  unfold estimateHighRegimeProb
  rw [if_neg hnd]
  rw [List.getD_eq_getElem _ _ (by simpa using hq)]
  rw [List.getElem_map, List.getElem_range]

/-- C2 (amended): below the minimum history length, for every position
`pos ≥ 1` the walk-forward probability equals the mean of the
provisional High-regime labels over the dates strictly before `pos`;
but at the very first date (`pos = 0`) it equals that date's *own*
provisional label (`high_flag.iloc[:1]`). -/
theorem estimateProb_short_history (clf : List ℚ → ℕ → ℚ) (vix : List ℚ)
    (pos : ℕ) (h1 : 1 ≤ pos) (h2 : pos < MIN_TRAIN) (h3 : pos < vix.length)
    (hnd : ¬ nuniqueB (highFlag vix) < 2) :
    (estimateHighRegimeProb clf vix).getD pos 0 =
      meanLabelsBefore (highFlag vix) pos ∧
    (estimateHighRegimeProb clf vix).getD 0 0 =
      b2q ((highFlag vix).getD 0 false) := by
  have hlen : (highFlag vix).length = vix.length := List.length_map _ _
  constructor
  · rw [estimateProb_getD clf vix pos h3 hnd]
    unfold loopProb
    rw [if_pos h2]
    unfold baselineProb meanLabelsBefore
    have hpos0 : ¬ pos = 0 := by omega
    simp only [hpos0, if_false]
    have htl : ((highFlag vix).take pos).length = pos := by
      rw [List.length_take, hlen]
      omega
    obtain ⟨hs0, hs1⟩ := sum_b2q_bounds ((highFlag vix).take pos)
    rw [htl] at hs1
    have hqpos : (0:ℚ) < pos := by exact_mod_cast h1
    have hm0 : 0 ≤ (((highFlag vix).take pos).map b2q).sum / (pos:ℚ) :=
      div_nonneg hs0 (le_of_lt hqpos)
    have hm1 : (((highFlag vix).take pos).map b2q).sum / (pos:ℚ) ≤ 1 := by
      rw [div_le_one hqpos]
      exact hs1
    have hne : ¬ ((highFlag vix).take pos).length = 0 := by omega
    rw [if_neg hne, htl]
    rw [min_eq_left hm1, max_eq_right hm0]
  · rw [estimateProb_getD clf vix 0 (by omega) hnd]
    unfold loopProb
    rw [if_pos (by norm_num [MIN_TRAIN])]
    unfold baselineProb
    simp only [if_pos rfl]
    have : 0 < (highFlag vix).length := by omega
    rcases hfl : highFlag vix with _ | ⟨a, as⟩
    · rw [hfl] at this; simp at this
    · simp only [List.take_cons, List.take_zero, List.map_cons, List.map_nil,
        List.sum_cons, List.sum_nil, List.length_cons, List.length_nil,
        List.getD_cons_zero]
      cases a <;> norm_num [b2q]

/-- Counterexample to C2 as stated: two vix series whose provisional
labels agree everywhere except at date 0 (where no strictly-prior dates
exist at all) produce different probabilities at date 0 — the estimate
at the first date is that date's own label, which the claim says is
never included. -/
theorem estimateProb_first_date_own_label :
    (estimateHighRegimeProb clfZero [40, 10, 10]).getD 0 0 = 1 ∧
    (estimateHighRegimeProb clfZero [10, 40, 10]).getD 0 0 = 0 := by
  constructor <;>
    · norm_num [estimateHighRegimeProb, highFlag, classify_regime, nuniqueB,
        loopProb, baselineProb, b2q, MIN_TRAIN, List.range_succ]
      simp only [String.reduceEq, reduceIte]
      norm_num

/-- Witness for the amended C2 at `vix = [30, 10]`, `pos = 1`: the
probability at position 1 is the mean of the labels before it. -/
theorem estimateProb_short_history_witness :
    (estimateHighRegimeProb clfZero [30, 10]).getD 1 0 =
      meanLabelsBefore (highFlag [30, 10]) 1 ∧
    (estimateHighRegimeProb clfZero [30, 10]).getD 0 0 =
      b2q ((highFlag [30, 10]).getD 0 false) :=
  estimateProb_short_history clfZero [30, 10] 1 (by norm_num)
    (by norm_num [MIN_TRAIN]) (by norm_num)
    (by norm_num [highFlag, classify_regime, nuniqueB]
        simp only [String.reduceEq, reduceIte]
        norm_num)

/-! ## regime_strategy.py `__init__` lines 55-62 and `positions` lines
129-130 — the discretised regime label (claim C6) -/

/-- `np.where(cond, a, b)` applied entrywise. -/
def npWhere {α : Type} (c : Bool) (a b : α) : α := if c then a else b

/-- The `self.regimes` series built in `__init__` (lines 55-62) from the
*raw* walk-forward probability:
`np.where(p > 0.6, HIGH, np.where(p < 0.25, LOW, MEDIUM))`. -/
def regimesFromProb (probs : List ℚ) : List String :=
  probs.map fun p =>
    npWhere (decide ((0.6:ℚ) < p)) "high_vol"
      (npWhere (decide (p < 0.25)) "low_vol" "medium_vol")

/-- Modelled from the claim's words: the regime label obtained by
thresholding a probability — High when it exceeds 0.6, Low when it is
below 0.25, Medium otherwise. -/
def regimeThreshold (p : ℚ) : String :=
  if 0.6 < p then "high_vol"
  else if p < 0.25 then "low_vol"
  else "medium_vol"

/-- `ewm(span=5, adjust=False).mean()` recursion after the first value
(`alpha = 2/(span+1) = 1/3`). -/
def ewm5Aux (prev : ℚ) : List ℚ → List ℚ
  | [] => []
  | x :: xs =>
      let s := (1/3) * x + (2/3) * prev
      s :: ewm5Aux s xs

/-- `Series.ewm(span=5, adjust=False).mean()`: the first value is kept,
later values are exponentially smoothed. -/
def ewm5 : List ℚ → List ℚ
  | [] => []
  | x :: xs => x :: ewm5Aux x xs

/-- The smoothed probability built in `positions` (lines 129-130):
clip to `[0,1]`, EMA with span 5, clip again. -/
def probHighSmoothed (probs : List ℚ) : List ℚ :=
  (ewm5 (probs.map fun p => max 0 (min p 1))).map fun p => max 0 (min p 1)

/-- Modelled from the claim's words: the label series obtained by
thresholding the smoothed (EMA span-5) probability. -/
def labelsFromSmoothed (probs : List ℚ) : List String :=
  (probHighSmoothed probs).map regimeThreshold

/-- C6 (amended): the regime label that `positions` uses to select the
base mix table at position `t` is the threshold (High > 0.6, Low < 0.25,
else Medium) of the *raw* walk-forward probability at `t` — not of the
smoothed probability. -/
theorem regime_label_from_raw_prob (probs : List ℚ) (t : ℕ)
    (ht : t < probs.length) :
    (regimesFromProb probs).getD t "medium_vol" =
      regimeThreshold (probs.getD t 0) := by
  unfold regimesFromProb
  rw [List.getD_eq_getElem _ _ (by simpa using ht),
    List.getD_eq_getElem _ _ ht, List.getElem_map]
  unfold npWhere regimeThreshold
  by_cases h1 : (0.6:ℚ) < probs[t]
  · simp [h1]
  · by_cases h2 : probs[t] < 0.25 <;> simp [h1, h2]

/-- Counterexample to C6 as stated: for the raw probability path
`[1, 0]`, the label used at date 1 is Low (raw probability 0), while
thresholding the smoothed probability (EMA value `2/3 > 0.6`) would give
High. -/
theorem regime_label_not_from_smoothed :
    (regimesFromProb [1, 0]).getD 1 "medium_vol" = "low_vol" ∧
    (labelsFromSmoothed [1, 0]).getD 1 "medium_vol" = "high_vol" ∧
    ("low_vol" : String) ≠ "high_vol" := by
  refine ⟨?_, ?_, by decide⟩
  · norm_num [regimesFromProb, npWhere]
  · norm_num [labelsFromSmoothed, probHighSmoothed, ewm5, ewm5Aux,
      regimeThreshold]

/-- Witness for the amended C6 at `probs = [0.7, 0.1]`, `t = 0`. -/
theorem regime_label_from_raw_prob_witness :
    (regimesFromProb [0.7, 0.1]).getD 0 "medium_vol" =
      regimeThreshold (([0.7, 0.1] : List ℚ).getD 0 0) :=
  regime_label_from_raw_prob [0.7, 0.1] 0 (by norm_num)

/-! ## backtest/metrics.py — `summary_stats` (claims C9, C10)

Source (lines 9-33).  The float power `**` and the square root inside
`Series.std` are abstracted as the oracles `rpow` and `sq`; the float
value of `np.sqrt(252)` is the parameter `s252`.  All series operations
below are applied (as in the source) to the NaN-free `clean` series,
for which the non-skipna folds used here agree with pandas. -/

/-- One summary-statistics record. -/
structure SummaryStats where
  cagr : F
  sharpe : F
  maxdd : F
deriving DecidableEq

/-- `returns.fillna(0.0)` entrywise. -/
def fillnaZero (x : F) : F := if x = F.nan then F.val 0 else x

/-- Series sum. -/
def fsumF (l : List F) : F := l.foldr F.fadd (F.val 0)

/-- `(1.0 + clean).prod()`. -/
def fprodOnePlus (l : List F) : F :=
  (l.map (F.fadd (F.val 1))).foldr F.fmul (F.val 1)

/-- `clean.mean()` (the mean of an empty series is `0/0 = NaN`). -/
def fmeanF (l : List F) : F := F.fdiv (fsumF l) (F.val l.length)

/-- The population variance behind `clean.std(ddof=0)`. -/
def fvarPop (l : List F) : F :=
  F.fdiv
    (fsumF (l.map fun x => F.fmul (F.fsub x (fmeanF l)) (F.fsub x (fmeanF l))))
    (F.val l.length)

/-- `clean.std(ddof=0)`: the square-root oracle applied to the
population variance (NaN propagates). -/
def fvolatility (sq : ℚ → ℚ) (l : List F) : F :=
  match fvarPop l with
  | F.val q => F.val (sq q)
  | x => x

/-- Python float truthiness (`if volatility`): only `0.0` is falsy; NaN
and the infinities are truthy. -/
def truthyF : F → Bool
  | F.val q => decide (q ≠ 0)
  | _ => true

/-- `np.isclose(x, 0.0)` with the default tolerances
(`atol = 1e-8`, and `rtol` contributes nothing against 0): false for
NaN and the infinities. -/
def iscloseZero : F → Bool
  | F.val q => decide (|q| ≤ 1e-8)
  | _ => false

/-- `cumulative ** (TRADING_DAYS / n)` behind the `cumulative > 0`
guard; on finite values the float power is the oracle `rpow`. -/
def fpowF (rpow : ℚ → ℚ → ℚ) : F → ℚ → F
  | F.val q, e => F.val (rpow q e)
  | F.pinf, _ => F.pinf
  | F.ninf, _ => F.nan
  | F.nan, _ => F.nan

/-- Running products: `(1.0 + clean).cumprod()` is
`runningProdF (F.val 1)` over the shifted series. -/
def runningProdF (acc : F) : List F → List F
  | [] => []
  | x :: xs =>
      let a := F.fmul acc x
      a :: runningProdF a xs

/-- `equity = (1.0 + clean).cumprod()`. -/
def equityF (clean : List F) : List F :=
  runningProdF (F.val 1) (clean.map (F.fadd (F.val 1)))

/-- `equity.cummax()` (pandas semantics: a NaN entry stays NaN and is
skipped by the running maximum). -/
def runningMaxF (best : F) : List F → List F
  | [] => []
  | F.nan :: xs => F.nan :: runningMaxF best xs
  | x :: xs =>
      let b := if F.fle best x then x else best
      b :: runningMaxF b xs

def cummaxF (l : List F) : List F := runningMaxF F.ninf l

/-- `Series.min()` (skipna: NaN entries are ignored; all-NaN or empty
gives NaN). -/
def fminSkipna (l : List F) : F :=
  l.foldr
    (fun x acc =>
      match x, acc with
      | F.nan, a => a
      | x, F.nan => x
      | x, a => if F.fle x a then x else a)
    F.nan

/-- `summary_stats` of backtest/metrics.py: `None` or empty input gives
all-NaN; otherwise CAGR, Sharpe and MaxDD with the source's guards. -/
def summary_stats (rpow : ℚ → ℚ → ℚ) (sq : ℚ → ℚ) (s252 : ℚ)
    (returns : Option (List F)) : SummaryStats :=
  match returns with
  | none => ⟨F.nan, F.nan, F.nan⟩
  | some r =>
      if r.length = 0 then ⟨F.nan, F.nan, F.nan⟩
      else
        let clean := r.map fillnaZero
        let cumulative := fprodOnePlus clean
        let cagr :=
          if F.flt (F.val 0) cumulative then
            F.fsub (fpowF rpow cumulative ((252 : ℚ) / clean.length)) (F.val 1)
          else F.nan
        let volatility := fvolatility sq clean
        let sharpe :=
          if truthyF volatility && !(iscloseZero volatility) then
            F.fdiv (F.fmul (F.val s252) (fmeanF clean)) volatility
          else F.nan
        let equity := equityF clean
        let maxdd := fminSkipna ((equity.zip (cummaxF equity)).map
          fun p => F.fsub (F.fdiv p.1 p.2) (F.val 1))
        ⟨cagr, sharpe, maxdd⟩

/-- Dividing by NaN gives NaN. -/
theorem fdiv_nan (x : F) : F.fdiv x F.nan = F.nan := by
  cases x <;> rfl

theorem fadd_val (a b : ℚ) : F.fadd (F.val a) (F.val b) = F.val (a + b) := rfl

theorem fsub_val (a b : ℚ) : F.fsub (F.val a) (F.val b) = F.val (a - b) := rfl

theorem fmul_val (a b : ℚ) : F.fmul (F.val a) (F.val b) = F.val (a * b) := rfl

theorem fdiv_val (a b : ℚ) (hb : b ≠ 0) :
    F.fdiv (F.val a) (F.val b) = F.val (a / b) := by
  simp [F.fdiv, hb]

theorem fillnaZero_val (a : ℚ) : fillnaZero (F.val a) = F.val a := rfl

/-- C9: `summary_stats` is total and resolves every degenerate case to
NaN instead of failing: `None` and empty inputs give `(NaN, NaN, NaN)`;
a non-positive cumulative `(1+returns)` product gives CAGR = NaN; zero
volatility (with a square root that vanishes at 0) and non-finite (NaN)
volatility both give Sharpe = NaN. -/
theorem summary_stats_guards (rpow : ℚ → ℚ → ℚ) (sq : ℚ → ℚ) (s252 : ℚ) :
    summary_stats rpow sq s252 none = ⟨F.nan, F.nan, F.nan⟩ ∧
    summary_stats rpow sq s252 (some []) = ⟨F.nan, F.nan, F.nan⟩ ∧
    (∀ (r : List F) (c : ℚ), fprodOnePlus (r.map fillnaZero) = F.val c →
      c ≤ 0 → (summary_stats rpow sq s252 (some r)).cagr = F.nan) ∧
    (∀ r : List F, sq 0 = 0 → fvarPop (r.map fillnaZero) = F.val 0 →
      (summary_stats rpow sq s252 (some r)).sharpe = F.nan) ∧
    (∀ r : List F, fvarPop (r.map fillnaZero) = F.nan →
      (summary_stats rpow sq s252 (some r)).sharpe = F.nan) := by
  refine ⟨rfl, rfl, ?_, ?_, ?_⟩
  · intro r c hc hcle
    by_cases hr : r.length = 0
    · simp [summary_stats, hr]
    · have hflt : F.flt (F.val 0) (F.val c) = false := by
        simp only [F.flt, decide_eq_false_iff_not, not_lt]
        exact hcle
      simp only [summary_stats, hr, if_false, hc, hflt]
      simp
  · intro r hsq hvar
    by_cases hr : r.length = 0
    · simp [summary_stats, hr]
    · simp only [summary_stats, hr, if_false, fvolatility, hvar, hsq]
      simp [truthyF]
  · intro r hvar
    by_cases hr : r.length = 0
    · simp [summary_stats, hr]
    · simp only [summary_stats, hr, if_false, fvolatility, hvar]
      simp [truthyF, iscloseZero, fdiv_nan]

/-- Witness for C9: the guards fire on concrete inputs — returns
`[-2]` (cumulative product `-1`), constant returns `[1, 1]` (zero
variance), and `[+inf]` (NaN variance). -/
theorem summary_stats_guards_witness :
    (summary_stats (fun b _ => b) id 0 (some [F.val (-2)])).cagr = F.nan ∧
    (summary_stats (fun b _ => b) id 0 (some [F.val 1, F.val 1])).sharpe
      = F.nan ∧
    (summary_stats (fun b _ => b) id 0 (some [F.pinf])).sharpe = F.nan :=
  ⟨(summary_stats_guards (fun b _ => b) id 0).2.2.1 [F.val (-2)] (-1)
      (by
        have h : fprodOnePlus ([F.val (-2)].map fillnaZero)
            = F.val ((1 + -2) * 1) := rfl
        rw [h]
        norm_num) (by norm_num),
   (summary_stats_guards (fun b _ => b) id 0).2.2.2.1 [F.val 1, F.val 1] rfl
      (by
        simp only [List.map_cons, List.map_nil, fillnaZero_val, fvarPop,
          fmeanF, fsumF, List.foldr_cons, List.foldr_nil, fadd_val,
          List.length_cons, List.length_nil]
        rw [fdiv_val _ _ (by norm_num)]
        simp only [List.map_cons, List.map_nil, fsub_val, fmul_val,
          List.foldr_cons, List.foldr_nil, fadd_val]
        rw [fdiv_val _ _ (by norm_num)]
        norm_num),
   (summary_stats_guards (fun b _ => b) id 0).2.2.2.2 [F.pinf]
      (by
        have h : fvarPop ([F.pinf].map fillnaZero) = F.nan := rfl
        exact h)⟩

theorem fillnaZero_idem : fillnaZero ∘ fillnaZero = fillnaZero := by
  funext x
  by_cases hx : x = F.nan <;> simp [fillnaZero, hx]

/-- An all-NaN series is cleaned to all zeros. -/
theorem allNan_map_fillna (l : List F) (h : ∀ x ∈ l, x = F.nan) :
    l.map fillnaZero = List.replicate l.length (F.val 0) := by
  induction l with
  | nil => simp
  | cons a as ih =>
      have ha : a = F.nan := h a (by simp)
      simp only [List.map_cons, List.length_cons, List.replicate_succ, ha]
      rw [ih fun x hx => h x (by simp [hx])]
      rfl

theorem fprodOnePlus_zeros (n : ℕ) :
    fprodOnePlus (List.replicate n (F.val 0)) = F.val 1 := by
  unfold fprodOnePlus
  rw [List.map_replicate]
  induction n with
  | zero => simp
  | succ k ih =>
      rw [List.replicate_succ, List.foldr_cons, ih, fadd_val, fmul_val]
      norm_num

theorem fsumF_zeros (n : ℕ) : fsumF (List.replicate n (F.val 0)) = F.val 0 := by
  unfold fsumF
  induction n with
  | zero => rfl
  | succ k ih =>
      rw [List.replicate_succ, List.foldr_cons, ih, fadd_val]
      norm_num

theorem fvarPop_zeros (n : ℕ) (hn : 0 < n) :
    fvarPop (List.replicate n (F.val 0)) = F.val 0 := by
  have hnq : ((n:ℚ)) ≠ 0 := Nat.cast_ne_zero.mpr (by omega)
  have hmean : fmeanF (List.replicate n (F.val 0)) = F.val 0 := by
    unfold fmeanF
    rw [fsumF_zeros, List.length_replicate, fdiv_val _ _ hnq]
    norm_num
  unfold fvarPop
  rw [hmean]
  have hmap : (List.replicate n (F.val 0)).map
      (fun x => F.fmul (F.fsub x (F.val 0)) (F.fsub x (F.val 0)))
      = List.replicate n (F.val 0) := by
    rw [List.map_replicate, fsub_val, fmul_val]
    norm_num
  rw [hmap, fsumF_zeros, List.length_replicate, fdiv_val _ _ hnq]
  norm_num

theorem runningProdF_ones (n : ℕ) (a : ℚ) :
    runningProdF (F.val a) (List.replicate n (F.val 1)) =
      List.replicate n (F.val a) := by
  induction n generalizing a with
  | zero => rfl
  | succ k ih =>
      rw [List.replicate_succ, runningProdF, List.replicate_succ]
      simp only [fmul_val, mul_one]
      rw [ih a]

theorem equityF_zeros (n : ℕ) :
    equityF (List.replicate n (F.val 0)) = List.replicate n (F.val 1) := by
  unfold equityF
  rw [List.map_replicate]
  have : F.fadd (F.val 1) (F.val 0) = F.val 1 := by rw [fadd_val]; norm_num
  rw [this, runningProdF_ones]

theorem runningMaxF_ones_val (n : ℕ) :
    runningMaxF (F.val 1) (List.replicate n (F.val 1)) =
      List.replicate n (F.val 1) := by
  induction n with
  | zero => rfl
  | succ k ih =>
      rw [List.replicate_succ, runningMaxF]
      · have hle : F.fle (F.val 1) (F.val 1) = true := by simp [F.fle]
        simp only [hle, if_true]
        rw [ih]
      · simp

theorem cummaxF_ones (n : ℕ) (hn : 0 < n) :
    cummaxF (List.replicate n (F.val 1)) = List.replicate n (F.val 1) := by
  obtain ⟨k, rfl⟩ := Nat.exists_eq_succ_of_ne_zero (by omega : n ≠ 0)
  unfold cummaxF
  rw [List.replicate_succ, runningMaxF]
  · have hle : F.fle F.ninf (F.val 1) = true := by simp [F.fle]
    simp only [hle, if_true]
    rw [runningMaxF_ones_val]
  · simp

theorem zip_replicate_self {α β : Type} (n : ℕ) (a : α) (b : β) :
    (List.replicate n a).zip (List.replicate n b) = List.replicate n (a, b) := by
  induction n with
  | zero => rfl
  | succ k ih =>
      simp only [List.replicate_succ, List.zip_cons_cons, ih]

theorem fminSkipna_zeros (n : ℕ) (hn : 0 < n) :
    fminSkipna (List.replicate n (F.val 0)) = F.val 0 := by
  induction n with
  | zero => omega
  | succ k ih =>
      rcases Nat.eq_zero_or_pos k with rfl | hk
      · rfl
      · unfold fminSkipna at ih ⊢
        rw [List.replicate_succ, List.foldr_cons, ih hk]
        simp [F.fle]

/-- C10: `summary_stats` treats NaN daily returns as zero-return days —
its value is unchanged by replacing every NaN entry with 0; hence a
non-empty all-NaN series yields CAGR = 0, Sharpe = NaN and MaxDD = 0
(not three NaNs), for any power oracle with `rpow 1 e = 1` at the used
exponent and any square-root oracle vanishing at 0. -/
theorem summary_stats_fillna_inv (rpow : ℚ → ℚ → ℚ) (sq : ℚ → ℚ) (s252 : ℚ) :
    (∀ r : List F, summary_stats rpow sq s252 (some r) =
      summary_stats rpow sq s252 (some (r.map fillnaZero))) ∧
    (∀ r : List F, r ≠ [] → (∀ x ∈ r, x = F.nan) →
      rpow 1 ((252:ℚ) / r.length) = 1 → sq 0 = 0 →
      summary_stats rpow sq s252 (some r) = ⟨F.val 0, F.nan, F.val 0⟩) := by
  constructor
  · intro r
    unfold summary_stats
    simp only [List.length_map, List.map_map, fillnaZero_idem]
  · intro r hne hall hrpow hsq
    have hlen : 0 < r.length := List.length_pos.mpr hne
    have hlen0 : ¬ r.length = 0 := by omega
    have hclean := allNan_map_fillna r hall
    unfold summary_stats
    simp only [hlen0, if_false, hclean]
    have hcum := fprodOnePlus_zeros r.length
    rw [hcum]
    have hflt : F.flt (F.val 0) (F.val 1) = true := by simp [F.flt]
    simp only [hflt, if_true, List.length_replicate]
    have hcagr : F.fsub (fpowF rpow (F.val 1) ((252:ℚ) / r.length)) (F.val 1)
        = F.val 0 := by
      simp only [fpowF, hrpow, fsub_val]
      norm_num
    have hvol : fvolatility sq (List.replicate r.length (F.val 0)) = F.val 0 := by
      unfold fvolatility
      rw [fvarPop_zeros r.length hlen]
      show F.val (sq 0) = F.val 0
      rw [hsq]
    have hsharpe : (truthyF (fvolatility sq (List.replicate r.length (F.val 0)))
        && !(iscloseZero (fvolatility sq (List.replicate r.length (F.val 0)))))
        = false := by
      rw [hvol]
      simp [truthyF]
    have hdd : fminSkipna (((equityF (List.replicate r.length (F.val 0))).zip
        (cummaxF (equityF (List.replicate r.length (F.val 0))))).map
        fun p => F.fsub (F.fdiv p.1 p.2) (F.val 1)) = F.val 0 := by
      rw [equityF_zeros, cummaxF_ones r.length hlen, zip_replicate_self,
        List.map_replicate]
      have : F.fsub (F.fdiv (F.val 1) (F.val 1)) (F.val 1) = F.val 0 := by
        rw [fdiv_val _ _ (by norm_num), fsub_val]
        norm_num
      rw [this, fminSkipna_zeros r.length hlen]
    rw [hcagr, hsharpe, hdd]
    simp

/-- Witness for C10 at the one-element all-NaN series. -/
theorem summary_stats_fillna_inv_witness :
    summary_stats (fun b _ => b) id 0 (some [F.nan]) =
      summary_stats (fun b _ => b) id 0 (some ([F.nan].map fillnaZero)) ∧
    summary_stats (fun b _ => b) id 0 (some [F.nan]) =
      ⟨F.val 0, F.nan, F.val 0⟩ :=
  ⟨(summary_stats_fillna_inv (fun b _ => b) id 0).1 [F.nan],
   (summary_stats_fillna_inv (fun b _ => b) id 0).2 [F.nan] (by simp)
     (by simp) rfl rfl⟩
